import Mathlib

/-!
Verification development for the amssa repository: a phonetic fingerprint
("phonehash") packer over width-generic unsigned integers, a text normalizer,
serialization adapters, and a sorted-collection fuzzy search.

Machine integers of width W are embedded as Nat values together with explicit
truncation by 2 ^ W at the points where the Rust code can discard high bits.
Loops are embedded as fuel-indexed structural recursions; at every call site
the fuel provided is shown (or chosen) to dominate the number of iterations
the Rust loop performs, so the fueled function agrees with the loop.
-/

namespace Amssa

/-- The 8 phoneme classes of src/src/phonemes.rs (enum PhonehashElem),
with their 3-bit discriminant values. -/
inductive PhonehashElem where
  | Space
  | A
  | B
  | F
  | S
  | G
  | M
  | W
deriving DecidableEq, Repr

/-- The numeric discriminant of a phoneme class (repr(u8) values 0..7). -/
def PhonehashElem.code : PhonehashElem → Nat
  | .Space => 0
  | .A => 1
  | .B => 2
  | .F => 3
  | .S => 4
  | .G => 5
  | .M => 6
  | .W => 7

/-- PhonehashRepr::stray_bits for an unsigned integer of W bits: W mod 3. -/
def stray_bits (W : Nat) : Nat := W % 3

/-- PhonehashRepr::max_phonemes: the capacity in 3-bit slots, W div 3. -/
def max_phonemes (W : Nat) : Nat := W / 3

/-- The FINAL_MASK constant of is_finalized: the all-ones word shifted left by
W - 3, truncated to W bits (in Rust the shift of the W-bit value discards the
overflowing high bits, hence the mod 2 ^ W). -/
def finalMask (W : Nat) : Nat := ((2 ^ W - 1) <<< (W - 3)) % 2 ^ W

/-- PhonehashRepr::is_finalized: the top 3 bits of the W-bit value are not all
zero. -/
def is_finalized (W v : Nat) : Bool := v &&& finalMask W != 0

/-- PhonehashRepr::finalize: shift left by 3 * remaining, then by stray_bits,
each shift truncating to W bits as the Rust shift on a W-bit integer does. -/
def finalize (W v remaining : Nat) : Nat :=
  (((v <<< (3 * remaining)) % 2 ^ W) <<< stray_bits W) % 2 ^ W

/-- PhonehashRepr::append: skip Space and the vowel class (code <= 1), skip a
class equal to the last stored one (the low 3 bits), skip when already
finalized; otherwise shift in the 3-bit code. Returns the new value and
whether the element was stored. -/
def append (W v : Nat) (e : PhonehashElem) : Nat × Bool :=
  if e.code ≤ 1 ∨ v &&& 7 = e.code ∨ is_finalized W v then (v, false)
  else (((v <<< 3) % 2 ^ W) ||| e.code, true)

/-- The match in PhonehashRepr::phoneme_at sending a 3-bit value to a phoneme
class; the catch-all arm gives none (it is unreachable for inputs below 8). -/
def decode_elem (d : Nat) : Option PhonehashElem :=
  match d with
  | 0 => some .Space
  | 1 => some .A
  | 2 => some .B
  | 3 => some .F
  | 4 => some .S
  | 5 => some .G
  | 6 => some .M
  | 7 => some .W
  | _ => none

/-- PhonehashRepr::phoneme_at: none for an index at or beyond capacity,
otherwise the 3-bit slot obtained by shifting right past the stray bits and
the later slots and masking with 7. -/
def phoneme_at (W v i : Nat) : Option PhonehashElem :=
  if i ≥ max_phonemes W then none
  else decode_elem ((v >>> (stray_bits W + 3 * (max_phonemes W - i - 1))) &&& 7)

/-- The while loop in PhonehashRepr::starts_with, with explicit fuel: shift
the mask right by 3 while it still overlaps a set bit of other. The Rust loop
terminates because the mask strictly decreases; fuel W dominates its iteration
count (the mask is zero after at most ceil(W / 3) shifts, and a zero mask ends
the loop). -/
def tail_mask_loop : Nat → Nat → Nat → Nat
  | 0, _, mask => mask
  | fuel + 1, other, mask =>
    if other &&& mask ≠ 0 then tail_mask_loop fuel other (mask >>> 3) else mask

/-- PhonehashRepr::starts_with: self lies in the closed range from other to
other bitwise-or the tail mask. The initial mask is the all-ones W-bit word
(the negation of the default value 0). -/
def starts_with (W a b : Nat) : Bool :=
  decide (b ≤ a) && decide (a ≤ (b ||| tail_mask_loop W b (2 ^ W - 1)))

/-- Byte list of a string literal (ASCII helper for concrete inputs). -/
def strBytes (s : String) : List Nat := s.toList.map Char.toNat

/-- u8::to_ascii_lowercase on a byte. -/
def toAsciiLower (c : Nat) : Nat := if 65 ≤ c ∧ c ≤ 90 then c + 32 else c

/-- The digit/symbol expansion flat_map of phonehash_elements, applied to a
lowercased byte: digits and the symbols dollar, percent, ampersand, plus
expand to their spelled-out words surrounded by spaces; lowercase letters pass
through; anything else becomes a single space. -/
def expandChar (c : Nat) : List Nat :=
  if c = 48 then strBytes " zero "
  else if c = 49 then strBytes " one "
  else if c = 50 then strBytes " two "
  else if c = 51 then strBytes " three "
  else if c = 52 then strBytes " four "
  else if c = 53 then strBytes " five "
  else if c = 54 then strBytes " six "
  else if c = 55 then strBytes " seven "
  else if c = 56 then strBytes " eight "
  else if c = 57 then strBytes " nine "
  else if c = 36 then strBytes " dollar "
  else if c = 37 then strBytes " percent "
  else if c = 38 then strBytes " and "
  else if c = 43 then strBytes " plus "
  else if 97 ≤ c ∧ c ≤ 122 then [c]
  else [32]

/-- The one-symbol-lookahead rewriting loop of phonehash_elements, written as
a fuel-indexed recursion over the byte list with the check_silent_first_letter
flag (which the Rust code takes, i.e. resets to false, at the start of every
iteration). Every step consumes at least one byte, so fuel equal to the list
length dominates the iteration count and makes the recursion agree with the
Rust loop (fuel zero forces an empty list, on which the loop is done).
The match arms, in source order: a p followed by h becomes f; of two
consecutive spaces the first is dropped; a g followed by h is dropped with its
h; a word-initial k directly before n is dropped (its n is emitted and
consumed); a space followed by k then n is emitted and re-arms the flag; any
other byte is emitted unchanged. Byte values: space 32, g 103, h 104, k 107,
n 110, p 112, f 102. -/
def rewriteLookahead : Nat → Bool → List Nat → List Nat
  | 0, _, _ => []
  | _ + 1, _, [] => []
  | _ + 1, _, [c] => [c]
  | fuel + 1, flag, c :: d :: rest =>
    if c = 112 ∧ d = 104 then 102 :: rewriteLookahead fuel false rest
    else if c = 32 ∧ d = 32 then rewriteLookahead fuel false (d :: rest)
    else if c = 103 ∧ d = 104 then rewriteLookahead fuel false rest
    else if flag = true ∧ c = 107 ∧ d = 110 then 110 :: rewriteLookahead fuel false rest
    else if c = 32 ∧ d = 107 ∧ rest.head? = some 110 then
      32 :: rewriteLookahead fuel true (d :: rest)
    else c :: rewriteLookahead fuel false (d :: rest)

/-- The final filter_map of phonehash_elements: space to Space, letters to
their class, h (and only h among the surviving bytes) to nothing. -/
def byteToElem (c : Nat) : Option PhonehashElem :=
  if c = 32 then some .Space
  else if c = 97 ∨ c = 101 ∨ c = 105 ∨ c = 111 ∨ c = 117 ∨ c = 121 then some .A
  else if c = 98 ∨ c = 100 ∨ c = 116 ∨ c = 112 then some .B
  else if c = 102 ∨ c = 118 then some .F
  else if c = 99 ∨ c = 115 ∨ c = 120 ∨ c = 107 ∨ c = 113 ∨ c = 122 then some .S
  else if c = 103 ∨ c = 106 then some .G
  else if c = 109 ∨ c = 110 then some .M
  else if c = 108 ∨ c = 114 ∨ c = 119 then some .W
  else none

/-- phonehash_elements of src/src/phonemes.rs. The input is the byte sequence
of the string after the ASCII transliteration performed by the external
deunicode crate (not part of src/), which is the identity on ASCII strings;
the pipeline lowercases each byte, expands digits and symbols, applies the
lookahead rewriting with the silent-first-letter flag initially armed, and
maps the surviving bytes to phoneme classes. -/
def phonehash_elements (s : List Nat) : List PhonehashElem :=
  (rewriteLookahead ((s.map toAsciiLower).flatMap expandChar).length true
    ((s.map toAsciiLower).flatMap expandChar)).filterMap byteToElem

/-- The loop of the FromIterator implementation for Phonehash: append each
element; on a successful store decrement the remaining capacity and stop when
it reaches zero. Returns the accumulator and the remaining capacity. -/
def pack_loop (W : Nat) : List PhonehashElem → Nat → Nat → Nat × Nat
  | [], v, rem => (v, rem)
  | e :: rest, v, rem =>
    let r := append W v e
    if r.2 then
      if rem - 1 = 0 then (r.1, rem - 1) else pack_loop W rest r.1 (rem - 1)
    else pack_loop W rest v rem

/-- Phonehash::from_iter: run the packing loop from the default (zero) value
with full capacity, then finalize with the remaining capacity. -/
def phonehash_from_elements (W : Nat) (l : List PhonehashElem) : Nat :=
  let p := pack_loop W l 0 (max_phonemes W)
  finalize W p.1 p.2

/-- Phonehash::new: pack the phoneme elements of the string. -/
def phonehash_new (W : Nat) (s : List Nat) : Nat :=
  phonehash_from_elements W (phonehash_elements s)

/-- The Display character of a phoneme class. -/
def elemChar : PhonehashElem → Char
  | .Space => '_'
  | .A => 'A'
  | .B => 'B'
  | .F => 'F'
  | .S => 'S'
  | .G => 'G'
  | .M => 'M'
  | .W => 'W'

/-- The Display implementation for Phonehash: one character per slot index
from 0 to capacity, the class character when phoneme_at yields a class and
a question mark otherwise. -/
def render (W v : Nat) : List Char :=
  (List.range (max_phonemes W)).map
    (fun i => match phoneme_at W v i with
      | some e => elemChar e
      | none => '?')

/-- The number of leading non-Space slots of a fingerprint value: the length
of its stored phoneme sequence, padding slots decoding as Space. -/
def stored_phoneme_count (W v : Nat) : Nat :=
  ((List.range (max_phonemes W)).takeWhile
    (fun i => phoneme_at W v i != some PhonehashElem.Space)).length

/-- The decode side of the serde and borsh adapters of src/src/feat: a decoded
representation that is neither the default (zero) value nor finalized is
rejected with the data-validation error; otherwise the wrapped value is
returned unchanged. -/
def deserialize_phonehash (W r : Nat) : Except String Nat :=
  if r ≠ 0 ∧ is_finalized W r = false then
    Except.error "Phonehash is neither blank nor finalized"
  else Except.ok r

/-- The encode side of the serde and borsh adapters: the inner packed integer
is written verbatim, with no framing. -/
def serialize_phonehash (v : Nat) : Nat := v

/-- A searchable item: original text (as its byte sequence) together with its
fingerprint value (the SearchableItem trait of src/src/search.rs, as_str and
as_phoneme). -/
structure SearchItem where
  text : List Nat
  fp : Nat
deriving DecidableEq, Repr

/-- Default item handed to out-of-range unchecked reads in the model; the
bounds theorems show it is never consulted. -/
def dfltItem : SearchItem := { text := [], fp := 0 }

/-- SearchableList::item_at_unchecked over a list model: indexed read with a
default out of range. -/
def item_at (l : List SearchItem) (i : Nat) : SearchItem := l.getD i dfltItem

/-- Modelled from the spec: the initialized distance matrix of the
Damerau-Levenshtein edit distance (the strsim crate's damerau_levenshtein,
which is not part of src/): an infinity border row and column holding the
maximal distance, and the standard first row and column. -/
def dl_init (aLen bLen maxDist : Nat) : Nat → Nat → Nat :=
  fun i j =>
    if i = 0 ∧ j = 0 then maxDist
    else if 1 ≤ i ∧ i ≤ aLen + 1 ∧ j = 0 then maxDist
    else if 1 ≤ i ∧ i ≤ aLen + 1 ∧ j = 1 then i - 1
    else if i = 0 ∧ 1 ≤ j ∧ j ≤ bLen + 1 then maxDist
    else if i = 1 ∧ 1 ≤ j ∧ j ≤ bLen + 1 then j - 1
    else 0

/-- Point update of a matrix represented as a function. -/
def mat_upd (m : Nat → Nat → Nat) (i j v : Nat) : Nat → Nat → Nat :=
  fun x y => if x = i ∧ y = j then v else m x y

/-- Modelled from the spec: the inner column loop of the unrestricted
Damerau-Levenshtein distance, over columns j, carrying the matrix and the
last-match column db; k is the last row where the current column character
occurred. -/
def dl_inner (a b : List Nat) (i : Nat) :
    List Nat → (Nat → Nat → Nat) → (Nat → Nat) → Nat → ((Nat → Nat → Nat) × Nat)
  | [], m, _, db => (m, db)
  | j :: js, m, da, db =>
    let k := da (b.getD (j - 1) 32)
    let insertionCost := m i (j + 1) + 1
    let deletionCost := m (i + 1) j + 1
    let transpositionCost := m k db + (i - k - 1) + 1 + (j - db - 1)
    let isEq : Bool := a.getD (i - 1) 32 = b.getD (j - 1) 32
    let substitutionCost := m i j + 1 - (if isEq then 1 else 0)
    let db2 := if isEq then j else db
    let best := min substitutionCost (min insertionCost (min deletionCost transpositionCost))
    dl_inner a b i js (mat_upd m (i + 1) (j + 1) best) da db2

/-- Modelled from the spec: the outer row loop of the unrestricted
Damerau-Levenshtein distance, recording after each row the row index of its
character. -/
def dl_outer (a b : List Nat) :
    List Nat → (Nat → Nat → Nat) → (Nat → Nat) → (Nat → Nat → Nat)
  | [], m, _ => m
  | i :: is, m, da =>
    let p := dl_inner a b i ((List.range b.length).map (fun j => j + 1)) m da 0
    dl_outer a b is p.1 (fun c => if c = a.getD (i - 1) 32 then i else da c)

/-- Modelled from the spec: the unrestricted Damerau-Levenshtein edit
distance between two character sequences, as computed by the strsim crate
used by SearchableList::phonehash_search (strsim is a dependency, not part
of src/). -/
def damerau_levenshtein (a b : List Nat) : Nat :=
  if a.length = 0 then b.length
  else if b.length = 0 then a.length
  else
    let m := dl_outer a b ((List.range a.length).map (fun j => j + 1))
      (dl_init a.length b.length (a.length + b.length)) (fun _ => 0)
    m (a.length + 1) (b.length + 1)

/-- The left-biased binary search loop of phonehash_search, with fuel: while
size is positive probe base + size / 2; move right past a strictly smaller
fingerprint, otherwise keep the left half. Each iteration strictly decreases
size, so fuel equal to the initial size makes the fueled recursion agree with
the Rust loop (when the fuel runs out, size has already reached zero). -/
def lb_loop (l : List SearchItem) (qfp : Nat) : Nat → Nat → Nat → Nat
  | 0, base, _ => base
  | fuel + 1, base, size =>
    if size = 0 then base
    else
      let half := size / 2
      let mid := base + half
      if (item_at l mid).fp < qfp then lb_loop l qfp fuel (mid + 1) (size - (half + 1))
      else lb_loop l qfp fuel base half

/-- The exact-match forward scan of phonehash_search, with fuel: while base is
in bounds and the fingerprint at base equals the query fingerprint, record the
item with its edit distance to the query text. Returns the candidates and the
final base. Fuel equal to the list length dominates the iteration count. -/
def scan_eq (l : List SearchItem) (qfp : Nat) (qtext : List Nat) :
    Nat → Nat → List (Nat × SearchItem) × Nat
  | 0, base => ([], base)
  | fuel + 1, base =>
    if base < l.length then
      let it := item_at l base
      if it.fp = qfp then
        let p := scan_eq l qfp qtext fuel (base + 1)
        ((damerau_levenshtein it.text qtext, it) :: p.1, p.2)
      else ([], base)
    else ([], base)

/-- The fuzzy-prefix forward scan of phonehash_search, with fuel: while base
is below the max item index and the fingerprint at base starts_with the query
fingerprint, record the item with its edit distance. -/
def scan_fz (W : Nat) (l : List SearchItem) (qfp : Nat) (qtext : List Nat) (maxIdx : Nat) :
    Nat → Nat → List (Nat × SearchItem)
  | 0, _ => []
  | fuel + 1, base =>
    if base < maxIdx then
      let it := item_at l base
      if starts_with W it.fp qfp then
        (damerau_levenshtein it.text qtext, it) :: scan_fz W l qfp qtext maxIdx fuel (base + 1)
      else []
    else []

/-- Stable insertion of a scored candidate: it goes after every earlier
candidate with a strictly smaller score and before the first with an equal or
larger one, as in a stable sort by score. -/
def insert_stable (x : Nat × SearchItem) : List (Nat × SearchItem) → List (Nat × SearchItem)
  | [] => [x]
  | y :: ys => if y.1 < x.1 then y :: insert_stable x ys else x :: y :: ys

/-- Stable sort of the scored candidates by score ascending, the result of
the stable sort_by on the distance component in phonehash_search (a stable
sort by a key is unique, so insertion sort computes the same list as the
Rust standard library's stable merge sort). -/
def sort_by_dist : List (Nat × SearchItem) → List (Nat × SearchItem)
  | [] => []
  | x :: xs => insert_stable x (sort_by_dist xs)

/-- SearchableList::phonehash_search: empty list gives an empty result;
otherwise lower-bound binary search, the exact-match run, the fuzzy-prefix
run capped at base + max_items (itself capped at the length), a stable sort
by edit distance, and truncation to max_items. -/
def phonehash_search (W : Nat) (l : List SearchItem) (query : SearchItem) (maxItems : Nat) :
    List SearchItem :=
  if l.length = 0 then []
  else
    let base := lb_loop l query.fp l.length 0 l.length
    let maxIdx := min (maxItems + base) l.length
    let p := scan_eq l query.fp query.text l.length base
    let fz := scan_fz W l query.fp query.text maxIdx l.length p.2
    ((sort_by_dist (p.1 ++ fz)).take maxItems).map Prod.snd

/-- The indices probed by the binary search loop, in order: each iteration
with positive size reads index base + size / 2. -/
def lb_accesses (l : List SearchItem) (qfp : Nat) : Nat → Nat → Nat → List Nat
  | 0, _, _ => []
  | fuel + 1, base, size =>
    if size = 0 then []
    else
      let half := size / 2
      let mid := base + half
      mid :: (if (item_at l mid).fp < qfp then lb_accesses l qfp fuel (mid + 1) (size - (half + 1))
        else lb_accesses l qfp fuel base half)

/-- The indices read by the exact-match scan: every index passing the bounds
check is read (also the one whose fingerprint then fails the equality test). -/
def scan_eq_accesses (l : List SearchItem) (qfp : Nat) : Nat → Nat → List Nat
  | 0, _ => []
  | fuel + 1, base =>
    if base < l.length then
      if (item_at l base).fp = qfp then base :: scan_eq_accesses l qfp fuel (base + 1)
      else [base]
    else []

/-- The indices read by the fuzzy-prefix scan: every index below the max item
index is read (also the one whose fingerprint then fails the prefix test). -/
def scan_fz_accesses (W : Nat) (l : List SearchItem) (qfp maxIdx : Nat) : Nat → Nat → List Nat
  | 0, _ => []
  | fuel + 1, base =>
    if base < maxIdx then
      if starts_with W (item_at l base).fp qfp then base :: scan_fz_accesses W l qfp maxIdx fuel (base + 1)
      else [base]
    else []

/-- All indices passed to item_at_unchecked during one phonehash_search call,
in order: the binary-search probes, the exact-run reads, the fuzzy-run reads. -/
def search_accesses (W : Nat) (l : List SearchItem) (query : SearchItem) (maxItems : Nat) :
    List Nat :=
  if l.length = 0 then []
  else
    let base := lb_loop l query.fp l.length 0 l.length
    let maxIdx := min (maxItems + base) l.length
    let base2 := (scan_eq l query.fp query.text l.length base).2
    lb_accesses l query.fp l.length 0 l.length ++ scan_eq_accesses l query.fp l.length base ++
      scan_fz_accesses W l query.fp maxIdx l.length base2

/-- The widths for which the repository instantiates PhonehashRepr: the
unsigned integer sizes 8, 16, 32, 64, 128 (usize being 64 bits). -/
def supportedWidth (W : Nat) : Prop :=
  W = 8 ∨ W = 16 ∨ W = 32 ∨ W = 64 ∨ W = 128

instance (W : Nat) : Decidable (supportedWidth W) := by
  unfold supportedWidth
  infer_instance

/-- Adjacent-pairs sortedness of a collection by fingerprint ascending: the
caller-maintained invariant the search algorithm assumes. -/
def sorted_by_fp : List SearchItem → Bool
  | [] => true
  | x :: rest =>
    (match rest.head? with
      | none => true
      | some y => decide (x.fp ≤ y.fp)) && sorted_by_fp rest

/-- An item of the concrete search test collection: the string with its
width-64 fingerprint. -/
def mk_item (s : String) : SearchItem :=
  { text := strBytes s, fp := phonehash_new 64 (strBytes s) }

/-- The five-item collection of the concrete search property, sorted
ascending by width-64 fingerprint. -/
def c2_list : List SearchItem :=
  [mk_item "aaaa", mk_item "the amazing digital circus", mk_item "knight rider",
    mk_item "nite writer", mk_item "neight rheyeder"]

/-- The de-duplicated storable-class code sequence of a phoneme stream: drop
Space and vowel classes (codes at most 1) and any class equal to the last
kept one; this is the sequence the packer stores, before capacity capping. -/
def stored_codes_aux (last : Nat) : List PhonehashElem → List Nat
  | [] => []
  | e :: rest =>
    if e.code ≤ 1 ∨ e.code = last then stored_codes_aux last rest
    else e.code :: stored_codes_aux e.code rest

/-- The code sequence actually stored when packing a phoneme stream at width
W: the de-duplicated storable classes, capped at the capacity. -/
def stored_codes (W : Nat) (l : List PhonehashElem) : List Nat :=
  (stored_codes_aux 0 l).take (max_phonemes W)

/-- Base-8 value of a code sequence, most significant first. -/
def enc (cs : List Nat) : Nat := cs.foldl (fun a c => a * 8 + c) 0

/-- The canonical finalized value of a stored code sequence for width W: the
codes as base-8 digits, left-aligned to the top of the W-bit word. -/
def canon (W : Nat) (cs : List Nat) : Nat := enc cs <<< (W - 3 * cs.length)

/-! ### Bit-arithmetic helpers -/

theorem supportedWidth_three_le {W : Nat} (h : supportedWidth W) : 3 ≤ W := by
  rcases h with rfl | rfl | rfl | rfl | rfl <;> norm_num

theorem land_window (x s k : Nat) :
    x &&& ((2 ^ k - 1) <<< s) = x / 2 ^ s % 2 ^ k * 2 ^ s := by
  apply Nat.eq_of_testBit_eq
  intro j
  rw [Nat.testBit_and, Nat.testBit_shiftLeft, Nat.testBit_two_pow_sub_one]
  rw [show x / 2 ^ s % 2 ^ k * 2 ^ s = (x / 2 ^ s % 2 ^ k) <<< s from (Nat.shiftLeft_eq _ _).symm]
  rw [Nat.testBit_shiftLeft, Nat.testBit_mod_two_pow]
  rw [show x / 2 ^ s = x >>> s from (Nat.shiftRight_eq_div_pow x s).symm]
  rw [Nat.testBit_shiftRight]
  by_cases hs : s ≤ j
  · have hj : s + (j - s) = j := by omega
    rw [hj]
    simp only [ge_iff_le, hs, decide_True, Bool.true_and]
    cases x.testBit j <;> cases h2 : decide (j - s < k) <;> simp
  · simp [ge_iff_le, hs]

theorem finalMask_eq (W : Nat) (hW : 3 ≤ W) : finalMask W = (2 ^ 3 - 1) <<< (W - 3) := by
  unfold finalMask
  rw [Nat.shiftLeft_eq, Nat.shiftLeft_eq]
  have h1 : 2 ^ W = 2 ^ 3 * 2 ^ (W - 3) := by
    rw [← pow_add]
    congr 1
    omega
  rw [h1, Nat.mul_mod_mul_right]
  have hk : 1 ≤ 2 ^ (W - 3) := Nat.one_le_two_pow
  congr 1
  omega

theorem is_finalized_iff (W v : Nat) (hW : 3 ≤ W) (hv : v < 2 ^ W) :
    is_finalized W v = true ↔ 2 ^ (W - 3) ≤ v := by
  have hq : v / 2 ^ (W - 3) < 2 ^ 3 := by
    apply Nat.div_lt_of_lt_mul
    calc v < 2 ^ W := hv
    _ = 2 ^ (W - 3) * 2 ^ 3 := by rw [← pow_add]; congr 1; omega
  rw [show is_finalized W v = (v &&& finalMask W != 0) from rfl, finalMask_eq W hW, land_window,
    Nat.mod_eq_of_lt hq, bne_iff_ne]
  have h2 : 0 < 2 ^ (W - 3) := Nat.pos_pow_of_pos _ (by norm_num)
  constructor
  · intro h
    by_contra hlt
    push_neg at hlt
    rw [Nat.div_eq_of_lt hlt] at h
    simp at h
  · intro h h0
    rcases Nat.mul_eq_zero.mp h0 with h1 | h1
    · have : 1 ≤ v / 2 ^ (W - 3) := (Nat.le_div_iff_mul_le h2).mpr (by omega)
      omega
    · omega

theorem two_pow_sub_one_shiftRight_three {k : Nat} (hk : 3 ≤ k) :
    (2 ^ k - 1) >>> 3 = 2 ^ (k - 3) - 1 := by
  rw [Nat.shiftRight_eq_div_pow]
  have h1 : 2 ^ k = 2 ^ 3 * 2 ^ (k - 3) := by
    rw [← pow_add]
    congr 1
    omega
  have h2 : 1 ≤ 2 ^ (k - 3) := Nat.one_le_two_pow
  omega

/-! ### Base-8 encoding lemmas -/

theorem enc_from (a : Nat) (cs : List Nat) :
    List.foldl (fun x c => x * 8 + c) a cs = a * 8 ^ cs.length + enc cs := by
  induction cs generalizing a with
  | nil => simp [enc]
  | cons c cs ih =>
    rw [List.foldl_cons, ih (a * 8 + c)]
    have hc : enc (c :: cs) = c * 8 ^ cs.length + enc cs := by
      show List.foldl (fun x c => x * 8 + c) 0 (c :: cs) = _
      rw [List.foldl_cons, ih (0 * 8 + c)]
      ring_nf
    rw [hc]
    simp [List.length_cons]
    ring

theorem enc_cons (c : Nat) (cs : List Nat) : enc (c :: cs) = c * 8 ^ cs.length + enc cs := by
  show List.foldl (fun x c => x * 8 + c) 0 (c :: cs) = _
  rw [List.foldl_cons, enc_from (0 * 8 + c)]
  ring_nf

theorem enc_append (xs ys : List Nat) : enc (xs ++ ys) = enc xs * 8 ^ ys.length + enc ys := by
  show List.foldl _ 0 (xs ++ ys) = _
  rw [List.foldl_append]
  exact enc_from _ ys

theorem enc_singleton (c : Nat) : enc [c] = c := by
  simp [enc]

theorem enc_lt (cs : List Nat) (h : ∀ c ∈ cs, c < 8) : enc cs < 8 ^ cs.length := by
  induction cs with
  | nil => simp [enc]
  | cons c cs ih =>
    have h1 : c < 8 := h c (List.mem_cons_self _ _)
    have h2 : enc cs < 8 ^ cs.length := ih (fun x hx => h x (List.mem_cons_of_mem _ hx))
    rw [enc_cons, List.length_cons]
    calc c * 8 ^ cs.length + enc cs < c * 8 ^ cs.length + 8 ^ cs.length := by omega
    _ = (c + 1) * 8 ^ cs.length := by ring
    _ ≤ 8 * 8 ^ cs.length := Nat.mul_le_mul_right _ (by omega)
    _ = 8 ^ (cs.length + 1) := by ring

theorem enc_pos (cs : List Nat) (hne : cs ≠ []) (h : ∀ c ∈ cs, 1 ≤ c) : 0 < enc cs := by
  rcases cs with - | ⟨c, cs⟩
  · exact absurd rfl hne
  · have h1 : 1 ≤ c := h c (List.mem_cons_self _ _)
    have h2 : 0 < 8 ^ cs.length := Nat.pos_pow_of_pos _ (by norm_num)
    rw [enc_cons]
    have := Nat.mul_le_mul h1 (Nat.le_refl (8 ^ cs.length))
    omega

theorem enc_inj (xs : List Nat) :
    ∀ ys : List Nat, xs.length = ys.length → (∀ c ∈ xs, c < 8) → (∀ c ∈ ys, c < 8) →
      enc xs = enc ys → xs = ys := by
  induction xs with
  | nil =>
    intro ys hlen _ _ _
    exact (List.eq_nil_of_length_eq_zero hlen.symm).symm
  | cons x xs ih =>
    intro ys hlen hx hy heq
    rcases ys with - | ⟨y, ys⟩
    · simp at hlen
    · have hlen' : xs.length = ys.length := by simpa using hlen
      rw [enc_cons, enc_cons, ← hlen'] at heq
      have hex : enc xs < 8 ^ xs.length := enc_lt xs (fun c hc => hx c (List.mem_cons_of_mem _ hc))
      have hey : enc ys < 8 ^ xs.length := by
        rw [hlen']
        exact enc_lt ys (fun c hc => hy c (List.mem_cons_of_mem _ hc))
      have hK : 0 < 8 ^ xs.length := Nat.pos_pow_of_pos _ (by norm_num)
      have hxy : x = y := by
        have d1 : (x * 8 ^ xs.length + enc xs) / 8 ^ xs.length = x := by
          rw [Nat.mul_comm x, Nat.mul_add_div hK, Nat.div_eq_of_lt hex]
          omega
        have d2 : (y * 8 ^ xs.length + enc ys) / 8 ^ xs.length = y := by
          rw [Nat.mul_comm y, Nat.mul_add_div hK, Nat.div_eq_of_lt hey]
          omega
        rw [← d1, ← d2, heq]
      subst hxy
      have henc : enc xs = enc ys := by
        have := heq
        omega
      rw [ih ys hlen' (fun c hc => hx c (List.mem_cons_of_mem _ hc))
        (fun c hc => hy c (List.mem_cons_of_mem _ hc)) henc]

theorem enc_split (cs : List Nat) (t : Nat) :
    enc cs = enc (cs.take t) * 8 ^ (cs.length - t) + enc (cs.drop t) := by
  have h0 := congrArg enc (List.take_append_drop t cs)
  rw [enc_append, List.length_drop] at h0
  omega

theorem enc_drop_lt (cs : List Nat) (t : Nat) (h8 : ∀ c ∈ cs, c < 8) :
    enc (cs.drop t) < 8 ^ (cs.length - t) := by
  have hlen : (cs.drop t).length = cs.length - t := List.length_drop t cs
  rw [← hlen]
  exact enc_lt _ (fun c hc => h8 c (List.mem_of_mem_drop hc))

theorem enc_div_take (cs : List Nat) (t : Nat) (h8 : ∀ c ∈ cs, c < 8) (ht : t ≤ cs.length) :
    enc cs / 8 ^ (cs.length - t) = enc (cs.take t) := by
  have hlt := enc_drop_lt cs t h8
  have hK : 0 < 8 ^ (cs.length - t) := Nat.pos_pow_of_pos _ (by norm_num)
  rw [enc_split cs t, Nat.mul_comm, Nat.mul_add_div hK, Nat.div_eq_of_lt hlt]
  omega

theorem enc_mod_drop (cs : List Nat) (t : Nat) (h8 : ∀ c ∈ cs, c < 8) (ht : t ≤ cs.length) :
    enc cs % 8 ^ (cs.length - t) = enc (cs.drop t) := by
  have hlt := enc_drop_lt cs t h8
  rw [enc_split cs t, Nat.mul_comm, Nat.mul_add_mod, Nat.mod_eq_of_lt hlt]

theorem enc_getD (cs : List Nat) (i : Nat) (h8 : ∀ c ∈ cs, c < 8) (hi : i < cs.length) :
    enc cs / 8 ^ (cs.length - i - 1) % 8 = cs.getD i 0 := by
  have h1 : cs.length - i - 1 = cs.length - (i + 1) := by omega
  rw [h1, enc_div_take cs (i + 1) h8 (by omega)]
  have h2 : cs.take (i + 1) = cs.take i ++ [cs[i]] := by
    rw [List.take_succ]
    congr 1
    rw [List.getElem?_eq_getElem hi]
    rfl
  rw [h2, enc_append, enc_singleton]
  have h3 : cs[i] < 8 := h8 _ (List.getElem_mem hi)
  rw [List.length_singleton, pow_one, List.getD_eq_getElem cs 0 hi]
  omega

/-! ### The packer produces canonical values -/

theorem code_lt_8 (e : PhonehashElem) : e.code < 8 := by
  cases e <;> simp [PhonehashElem.code]

theorem stored_codes_aux_bounds (l : List PhonehashElem) :
    ∀ (last : Nat), ∀ c ∈ stored_codes_aux last l, 2 ≤ c ∧ c < 8 := by
  induction l with
  | nil => intro last c hc; simp [stored_codes_aux] at hc
  | cons e rest ih =>
    intro last c hc
    simp only [stored_codes_aux] at hc
    by_cases h : e.code ≤ 1 ∨ e.code = last
    · rw [if_pos h] at hc
      exact ih last c hc
    · rw [if_neg h] at hc
      push_neg at h
      rcases List.mem_cons.mp hc with rfl | hc'
      · exact ⟨by omega, code_lt_8 e⟩
      · exact ih e.code c hc'

theorem enc_and7 (cs : List Nat) (h8 : ∀ c ∈ cs, c < 8) : enc cs &&& 7 = cs.getLastD 0 := by
  rw [show (7 : Nat) = 2 ^ 3 - 1 by norm_num, Nat.and_pow_two_sub_one_eq_mod]
  rcases List.eq_nil_or_concat cs with rfl | ⟨xs, c, rfl⟩
  · simp [enc]
  · rw [List.concat_eq_append, enc_append, enc_singleton, List.getLastD_concat,
      List.length_singleton, pow_one]
    have hc : c < 8 := h8 c (by simp)
    omega

theorem not_finalized_small (W v : Nat) (hW : 3 ≤ W) (hv : v < 2 ^ (W - 3)) :
    is_finalized W v = false := by
  have h1 : v < 2 ^ W :=
    lt_of_lt_of_le hv (Nat.pow_le_pow_right (by norm_num) (by omega))
  cases h : is_finalized W v with
  | false => rfl
  | true => exact absurd ((is_finalized_iff W v hW h1).mp h) (by omega)

theorem is_finalized_zero (W : Nat) : is_finalized W 0 = false := by
  simp [is_finalized]

theorem max_phonemes_le (W : Nat) : 3 * max_phonemes W ≤ W := by
  unfold max_phonemes
  omega

theorem pack_loop_spec (W : Nat) (hW : 3 ≤ W) (l : List PhonehashElem) :
    ∀ (acc : List Nat) (rem : Nat),
      (∀ c ∈ acc, 2 ≤ c ∧ c < 8) →
      acc.length + rem = max_phonemes W →
      1 ≤ rem →
      pack_loop W l (enc acc) rem =
        (enc (acc ++ (stored_codes_aux (acc.getLastD 0) l).take rem),
          rem - ((stored_codes_aux (acc.getLastD 0) l).take rem).length) := by
  induction l with
  | nil =>
    intro acc rem h8 hlen hrem
    simp [pack_loop, stored_codes_aux]
  | cons e rest ih =>
    intro acc rem h8 hlen hrem
    have hmax3 : 3 * max_phonemes W ≤ W := max_phonemes_le W
    have h8' : ∀ c ∈ acc, c < 8 := fun c hc => (h8 c hc).2
    have hand : enc acc &&& 7 = acc.getLastD 0 := enc_and7 acc h8'
    have henclt : enc acc < 8 ^ acc.length := enc_lt acc h8'
    have hsmall : enc acc < 2 ^ (W - 3) := by
      calc enc acc < 8 ^ acc.length := henclt
      _ ≤ 8 ^ (max_phonemes W - 1) := Nat.pow_le_pow_right (by norm_num) (by omega)
      _ = 2 ^ (3 * (max_phonemes W - 1)) := by
        rw [show (8 : Nat) = 2 ^ 3 by norm_num, ← pow_mul]
      _ ≤ 2 ^ (W - 3) := Nat.pow_le_pow_right (by norm_num) (by omega)
    have hfin : is_finalized W (enc acc) = false := not_finalized_small W _ hW hsmall
    by_cases hc : e.code ≤ 1 ∨ e.code = acc.getLastD 0
    · have hcond : e.code ≤ 1 ∨ enc acc &&& 7 = e.code ∨ is_finalized W (enc acc) = true := by
        rcases hc with h | h
        · exact Or.inl h
        · exact Or.inr (Or.inl (by rw [hand, h]))
      have happ : append W (enc acc) e = (enc acc, false) := by
        unfold append
        rw [if_pos hcond]
      have hsc : stored_codes_aux (acc.getLastD 0) (e :: rest) =
          stored_codes_aux (acc.getLastD 0) rest := by
        simp only [stored_codes_aux]
        rw [if_pos hc]
      simp only [pack_loop, happ]
      rw [hsc]
      exact ih acc rem h8 hlen hrem
    · push_neg at hc
      obtain ⟨hc1, hc2⟩ := hc
      have hcond : ¬(e.code ≤ 1 ∨ enc acc &&& 7 = e.code ∨ is_finalized W (enc acc) = true) := by
        push_neg
        refine ⟨hc1, ?_, ?_⟩
        · rw [hand]
          exact fun h => hc2 h.symm
        · rw [hfin]
          simp
      have hstore : append W (enc acc) e = (enc (acc ++ [e.code]), true) := by
        unfold append
        rw [if_neg hcond]
        have hmod : enc acc * 2 ^ 3 < 2 ^ W := by
          calc enc acc * 2 ^ 3 < 2 ^ (W - 3) * 2 ^ 3 :=
            (Nat.mul_lt_mul_right (by norm_num)).mpr hsmall
          _ = 2 ^ W := by rw [← pow_add]; congr 1; omega
        rw [Nat.shiftLeft_eq, Nat.mod_eq_of_lt hmod]
        have hor := Nat.mul_add_lt_is_or (b := e.code) (i := 3)
          (by simpa using code_lt_8 e) (enc acc)
        rw [enc_append, enc_singleton, List.length_singleton, pow_one]
        rw [show enc acc * 2 ^ 3 = 2 ^ 3 * enc acc by ring, ← hor]
        have h83 : (2 : Nat) ^ 3 = 8 := by norm_num
        rw [h83, Nat.mul_comm 8 (enc acc)]
      have hsc : stored_codes_aux (acc.getLastD 0) (e :: rest) =
          e.code :: stored_codes_aux e.code rest := by
        simp only [stored_codes_aux]
        rw [if_neg]
        push_neg
        exact ⟨hc1, hc2⟩
      simp only [pack_loop, hstore]
      simp only [if_true]
      rw [hsc]
      by_cases hrem1 : rem - 1 = 0
      · have hrem' : rem = 1 := by omega
        subst hrem'
        simp
      · simp only [if_neg hrem1]
        have hacc8 : ∀ c ∈ acc ++ [e.code], 2 ≤ c ∧ c < 8 := by
          intro c hcmem
          rcases List.mem_append.mp hcmem with h | h
          · exact h8 c h
          · rcases List.mem_singleton.mp h with rfl
            exact ⟨by omega, code_lt_8 e⟩
        have ihres := ih (acc ++ [e.code]) (rem - 1) hacc8
          (by rw [List.length_append, List.length_singleton]; omega) (by omega)
        rw [List.getLastD_concat] at ihres
        rw [ihres]
        obtain ⟨rem', rfl⟩ : ∃ r, rem = r + 1 := ⟨rem - 1, by omega⟩
        simp only [Nat.add_sub_cancel, List.take_succ_cons]
        rw [show acc ++ e.code :: (stored_codes_aux e.code rest).take rem' =
          (acc ++ [e.code]) ++ (stored_codes_aux e.code rest).take rem' by simp]
        simp only [List.length_cons]
        rw [Prod.mk.injEq]
        exact ⟨rfl, by omega⟩

theorem finalize_canon (W : Nat) (hW : 3 ≤ W) (cs : List Nat) (h8 : ∀ c ∈ cs, c < 8)
    (hn : cs.length ≤ max_phonemes W) :
    finalize W (enc cs) (max_phonemes W - cs.length) = canon W cs := by
  unfold finalize canon stray_bits
  have hmax3 : 3 * max_phonemes W + W % 3 = W := by unfold max_phonemes; omega
  have hencn : enc cs < 2 ^ (3 * cs.length) := by
    calc enc cs < 8 ^ cs.length := enc_lt cs h8
    _ = 2 ^ (3 * cs.length) := by rw [show (8 : Nat) = 2 ^ 3 by norm_num, ← pow_mul]
  have h1 : enc cs * 2 ^ (3 * (max_phonemes W - cs.length)) < 2 ^ W := by
    calc enc cs * 2 ^ (3 * (max_phonemes W - cs.length)) <
        2 ^ (3 * cs.length) * 2 ^ (3 * (max_phonemes W - cs.length)) :=
      (Nat.mul_lt_mul_right (Nat.pos_pow_of_pos _ (by norm_num))).mpr hencn
    _ = 2 ^ (3 * max_phonemes W) := by rw [← pow_add]; congr 1; omega
    _ ≤ 2 ^ W := Nat.pow_le_pow_right (by norm_num) (by omega)
  have h2 : enc cs * 2 ^ (3 * (max_phonemes W - cs.length)) * 2 ^ (W % 3) < 2 ^ W := by
    calc enc cs * 2 ^ (3 * (max_phonemes W - cs.length)) * 2 ^ (W % 3) <
        2 ^ (3 * cs.length) * 2 ^ (3 * (max_phonemes W - cs.length)) * 2 ^ (W % 3) := by
          exact (Nat.mul_lt_mul_right (Nat.pos_pow_of_pos _ (by norm_num))).mpr
            ((Nat.mul_lt_mul_right (Nat.pos_pow_of_pos _ (by norm_num))).mpr hencn)
    _ = 2 ^ W := by rw [← pow_add, ← pow_add]; congr 1; omega
  rw [Nat.shiftLeft_eq, Nat.shiftLeft_eq, Nat.shiftLeft_eq, Nat.mod_eq_of_lt h1,
    Nat.mod_eq_of_lt h2, mul_assoc, ← pow_add]
  congr 2
  omega

theorem from_elements_canon (W : Nat) (hW : 3 ≤ W) (l : List PhonehashElem) :
    phonehash_from_elements W l = canon W (stored_codes W l) := by
  unfold phonehash_from_elements
  have hmax : 1 ≤ max_phonemes W := by unfold max_phonemes; omega
  have h := pack_loop_spec W hW l [] (max_phonemes W) (by simp) (by simp) hmax
  rw [show enc ([] : List Nat) = 0 from rfl] at h
  simp only [List.nil_append, List.getLastD_nil] at h
  rw [h]
  simp only [stored_codes]
  have hlen : ((stored_codes_aux 0 l).take (max_phonemes W)).length ≤ max_phonemes W := by
    rw [List.length_take]
    omega
  exact finalize_canon W hW _
    (fun c hc => (stored_codes_aux_bounds l 0 c (List.mem_of_mem_take hc)).2) hlen

theorem stored_codes_bounds (W : Nat) (l : List PhonehashElem) :
    ∀ c ∈ stored_codes W l, 2 ≤ c ∧ c < 8 :=
  fun c hc => stored_codes_aux_bounds l 0 c (List.mem_of_mem_take hc)

theorem stored_codes_len (W : Nat) (l : List PhonehashElem) :
    (stored_codes W l).length ≤ max_phonemes W := by
  unfold stored_codes
  rw [List.length_take]
  omega

theorem canon_lt (W : Nat) (cs : List Nat) (h8 : ∀ c ∈ cs, c < 8) (h3n : 3 * cs.length ≤ W) :
    canon W cs < 2 ^ W := by
  unfold canon
  rw [Nat.shiftLeft_eq]
  have hencn : enc cs < 2 ^ (3 * cs.length) := by
    calc enc cs < 8 ^ cs.length := enc_lt cs h8
    _ = 2 ^ (3 * cs.length) := by rw [show (8 : Nat) = 2 ^ 3 by norm_num, ← pow_mul]
  calc enc cs * 2 ^ (W - 3 * cs.length) <
      2 ^ (3 * cs.length) * 2 ^ (W - 3 * cs.length) :=
    (Nat.mul_lt_mul_right (Nat.pos_pow_of_pos _ (by norm_num))).mpr hencn
  _ = 2 ^ W := by rw [← pow_add]; congr 1; omega

theorem canon_nil (W : Nat) : canon W [] = 0 := by
  simp [canon, enc]

theorem canon_finalized (W : Nat) (hW : 3 ≤ W) (cs : List Nat)
    (h8 : ∀ c ∈ cs, 2 ≤ c ∧ c < 8) (hn : cs.length ≤ max_phonemes W) (hne : cs ≠ []) :
    is_finalized W (canon W cs) = true := by
  have hmax3 : 3 * max_phonemes W ≤ W := max_phonemes_le W
  have h8' : ∀ c ∈ cs, c < 8 := fun c hc => (h8 c hc).2
  rw [is_finalized_iff W _ hW (canon_lt W cs h8' (by omega))]
  rcases cs with - | ⟨c, cs'⟩
  · exact absurd rfl hne
  · have h2c : 2 ≤ c := (h8 c (List.mem_cons_self _ _)).1
    have hb : 2 * 8 ^ cs'.length ≤ enc (c :: cs') := by
      rw [enc_cons]
      have := Nat.mul_le_mul_right (8 ^ cs'.length) h2c
      omega
    have hlen3 : 3 * (cs'.length + 1) ≤ W := by
      have : (c :: cs').length = cs'.length + 1 := rfl
      omega
    unfold canon
    rw [Nat.shiftLeft_eq]
    have hkey : 2 * 8 ^ cs'.length * 2 ^ (W - 3 * (c :: cs').length) = 2 ^ (W - 2) := by
      rw [show (8 : Nat) = 2 ^ 3 by norm_num, ← pow_mul]
      rw [show 2 * 2 ^ (3 * cs'.length) = 2 ^ (3 * cs'.length + 1) by
        rw [pow_succ]; ring]
      rw [← pow_add]
      congr 1
      simp only [List.length_cons]
      omega
    calc 2 ^ (W - 3) ≤ 2 ^ (W - 2) := Nat.pow_le_pow_right (by norm_num) (by omega)
    _ = 2 * 8 ^ cs'.length * 2 ^ (W - 3 * (c :: cs').length) := hkey.symm
    _ ≤ enc (c :: cs') * 2 ^ (W - 3 * (c :: cs').length) :=
      Nat.mul_le_mul_right _ hb

theorem canon_ne_zero (W : Nat) (hW : 3 ≤ W) (cs : List Nat)
    (h8 : ∀ c ∈ cs, 2 ≤ c ∧ c < 8) (hn : cs.length ≤ max_phonemes W) (hne : cs ≠ []) :
    canon W cs ≠ 0 := by
  intro h0
  have := canon_finalized W hW cs h8 hn hne
  rw [h0, is_finalized_zero] at this
  simp at this

/-! ### Slot decoding of canonical values -/

theorem phoneme_at_canon (W : Nat) (hW : 3 ≤ W) (cs : List Nat) (h8 : ∀ c ∈ cs, c < 8)
    (hn : cs.length ≤ max_phonemes W) (i : Nat) (hi : i < max_phonemes W) :
    phoneme_at W (canon W cs) i = decode_elem (cs.getD i 0) := by
  have hmax3 : 3 * max_phonemes W ≤ W := max_phonemes_le W
  have h3n : 3 * cs.length ≤ W := by omega
  have h3i : 3 * (i + 1) ≤ W := by omega
  unfold phoneme_at
  rw [if_neg (by omega)]
  have hshift : stray_bits W + 3 * (max_phonemes W - i - 1) = W - 3 * (i + 1) := by
    unfold stray_bits max_phonemes
    unfold max_phonemes at hi
    omega
  rw [hshift]
  congr 1
  rw [Nat.shiftRight_eq_div_pow, show (7 : Nat) = 2 ^ 3 - 1 by norm_num,
    Nat.and_pow_two_sub_one_eq_mod]
  unfold canon
  rw [Nat.shiftLeft_eq]
  by_cases hcase : i < cs.length
  · have hd : W - 3 * cs.length + 3 * (cs.length - i - 1) = W - 3 * (i + 1) := by omega
    rw [← hd, pow_add, ← Nat.div_div_eq_div_mul,
      Nat.mul_div_cancel _ (Nat.pos_pow_of_pos _ (by norm_num)),
      show (2 : Nat) ^ (3 * (cs.length - i - 1)) = 8 ^ (cs.length - i - 1) by
        rw [pow_mul]; norm_num,
      show (2 : Nat) ^ 3 = 8 by norm_num]
    exact enc_getD cs i h8 hcase
  · push_neg at hcase
    rw [List.getD_eq_default _ _ hcase]
    have hd2 : W - 3 * cs.length = W - 3 * (i + 1) + 3 * (i + 1 - cs.length) := by omega
    rw [hd2, pow_add,
      show enc cs * (2 ^ (W - 3 * (i + 1)) * 2 ^ (3 * (i + 1 - cs.length))) =
        enc cs * 2 ^ (3 * (i + 1 - cs.length)) * 2 ^ (W - 3 * (i + 1)) by ring,
      Nat.mul_div_cancel _ (Nat.pos_pow_of_pos _ (by norm_num))]
    have hsplit : (2 : Nat) ^ (3 * (i + 1 - cs.length)) =
        2 ^ 3 * 2 ^ (3 * (i + 1 - cs.length) - 3) := by
      rw [← pow_add]
      congr 1
      omega
    rw [hsplit, show enc cs * (2 ^ 3 * 2 ^ (3 * (i + 1 - cs.length) - 3)) =
      2 ^ 3 * (enc cs * 2 ^ (3 * (i + 1 - cs.length) - 3)) by ring, Nat.mul_mod_right]

/-! ### Stored phoneme count of canonical values -/

theorem takeWhile_range'_length (p : Nat → Bool) (n : Nat) :
    ∀ (len s : Nat), (∀ i, s ≤ i → i < s + len → (p i = true ↔ i < n)) →
      ((List.range' s len).takeWhile p).length = min len (n - s) := by
  intro len
  induction len with
  | zero => intro s hp; simp
  | succ len ih =>
    intro s hp
    rw [List.range'_succ, List.takeWhile_cons]
    by_cases hs : s < n
    · rw [if_pos ((hp s (Nat.le_refl s) (by omega)).mpr hs)]
      simp only [List.length_cons]
      rw [ih (s + 1) (fun i h1 h2 => hp i (by omega) (by omega))]
      omega
    · have hps : p s = false := by
        cases h : p s
        · rfl
        · exact absurd ((hp s (Nat.le_refl s) (by omega)).mp h) hs
      rw [hps]
      simp
      omega

theorem stored_count_canon (W : Nat) (hW : 3 ≤ W) (cs : List Nat)
    (h8 : ∀ c ∈ cs, 2 ≤ c ∧ c < 8) (hn : cs.length ≤ max_phonemes W) :
    stored_phoneme_count W (canon W cs) = cs.length := by
  unfold stored_phoneme_count
  rw [List.range_eq_range']
  rw [takeWhile_range'_length _ cs.length (max_phonemes W) 0 ?hp]
  · omega
  case hp =>
    intro i h0 hilt
    simp only [Nat.zero_add] at hilt
    rw [phoneme_at_canon W hW cs (fun c hc => (h8 c hc).2) hn i hilt]
    by_cases hc : i < cs.length
    · have h2 : 2 ≤ cs.getD i 0 ∧ cs.getD i 0 < 8 := by
        rw [List.getD_eq_getElem _ _ hc]
        exact h8 _ (List.getElem_mem hc)
      have hdec : ∀ d < 8, 2 ≤ d → decode_elem d ≠ some PhonehashElem.Space := by decide
      have hne := hdec _ h2.2 h2.1
      rw [List.getD_eq_getElem _ _ hc] at hne
      simp [bne_iff_ne, hne, hc]
    · rw [List.getD_eq_default _ _ (by omega)]
      simp [decode_elem, hc]

/-! ### The tail mask of a canonical value covers exactly its padding -/

theorem tail_mask_loop_aux (W : Nat) (hW : 3 ≤ W) (cs : List Nat)
    (h8 : ∀ c ∈ cs, 1 ≤ c ∧ c < 8) (hn : cs.length ≤ max_phonemes W) :
    ∀ (fuel t : Nat), t ≤ cs.length → cs.length - t < fuel →
      tail_mask_loop fuel (canon W cs) (2 ^ (W - 3 * t) - 1) =
        2 ^ (W - 3 * cs.length) - 1 := by
  intro fuel
  induction fuel with
  | zero => intro t h1 h2; omega
  | succ fuel ih =>
    intro t ht hfuel
    have hmax3 : 3 * max_phonemes W ≤ W := max_phonemes_le W
    by_cases hcase : t = cs.length
    · subst hcase
      unfold tail_mask_loop
      rw [if_neg]
      rw [Nat.and_pow_two_sub_one_eq_mod]
      unfold canon
      rw [Nat.shiftLeft_eq, Nat.mul_mod_left]
      simp
    · have htlt : t < cs.length := by omega
      unfold tail_mask_loop
      rw [if_pos]
      · have hmask : (2 ^ (W - 3 * t) - 1) >>> 3 = 2 ^ (W - 3 * (t + 1)) - 1 := by
          rw [two_pow_sub_one_shiftRight_three (by omega),
            show W - 3 * t - 3 = W - 3 * (t + 1) by omega]
        rw [hmask]
        exact ih (t + 1) (by omega) (by omega)
      · rw [Nat.and_pow_two_sub_one_eq_mod]
        unfold canon
        rw [Nat.shiftLeft_eq]
        have hsplit : (2 : Nat) ^ (W - 3 * t) =
            2 ^ (3 * (cs.length - t)) * 2 ^ (W - 3 * cs.length) := by
          rw [← pow_add]
          congr 1
          omega
        rw [hsplit, Nat.mul_mod_mul_right]
        have h2 : enc cs % 2 ^ (3 * (cs.length - t)) = enc (cs.drop t) := by
          rw [show (2 : Nat) ^ (3 * (cs.length - t)) = 8 ^ (cs.length - t) by
            rw [pow_mul]; norm_num]
          exact enc_mod_drop cs t (fun c hc => (h8 c hc).2) (by omega)
        rw [h2]
        have hdne : cs.drop t ≠ [] := by
          intro h
          have hl := List.length_drop t cs
          rw [h] at hl
          simp at hl
          omega
        have hpos : 0 < enc (cs.drop t) :=
          enc_pos _ hdne (fun c hc => (h8 c (List.mem_of_mem_drop hc)).1)
        have hpow : 0 < 2 ^ (W - 3 * cs.length) := Nat.pos_pow_of_pos _ (by norm_num)
        exact Nat.pos_iff_ne_zero.mp (Nat.mul_pos hpos hpow)

theorem tail_mask_canon (W : Nat) (hW : 3 ≤ W) (cs : List Nat)
    (h8 : ∀ c ∈ cs, 1 ≤ c ∧ c < 8) (hn : cs.length ≤ max_phonemes W) :
    tail_mask_loop W (canon W cs) (2 ^ W - 1) = 2 ^ (W - 3 * cs.length) - 1 := by
  have hlt : cs.length < W := by
    have := max_phonemes_le W
    omega
  have h := tail_mask_loop_aux W hW cs h8 hn W 0 (by omega) (by omega)
  simpa using h

/-! ### The numeric range test is digit-prefix comparison -/

theorem le_or_mask_iff (q s a : Nat) :
    (q * 2 ^ s ≤ a ∧ a ≤ q * 2 ^ s ||| (2 ^ s - 1)) ↔ a / 2 ^ s = q := by
  have hpos : 0 < 2 ^ s := Nat.pos_pow_of_pos _ (by norm_num)
  have hor : q * 2 ^ s ||| (2 ^ s - 1) = q * 2 ^ s + (2 ^ s - 1) := by
    rw [show q * 2 ^ s = 2 ^ s * q by ring]
    exact (Nat.mul_add_lt_is_or (by omega) q).symm
  rw [hor]
  constructor
  · rintro ⟨h1, h2⟩
    apply Nat.div_eq_of_lt_le h1
    have : (q + 1) * 2 ^ s = q * 2 ^ s + 2 ^ s := by ring
    omega
  · intro h
    constructor
    · rw [← h]
      exact Nat.div_mul_le_self a (2 ^ s)
    · have hdm := Nat.div_add_mod a (2 ^ s)
      have hm : a % 2 ^ s < 2 ^ s := Nat.mod_lt _ hpos
      rw [← h, Nat.mul_comm]
      omega

theorem getD_lt_8 (cs : List Nat) (h8 : ∀ c ∈ cs, c < 8) (i : Nat) : cs.getD i 0 < 8 := by
  by_cases h : i < cs.length
  · rw [List.getD_eq_getElem _ _ h]
    exact h8 _ (List.getElem_mem h)
  · rw [List.getD_eq_default _ _ (by omega)]
    norm_num

theorem lists_eq_iff_getD (xs ys : List Nat) (hlen : xs.length = ys.length) :
    xs = ys ↔ ∀ i < ys.length, xs.getD i 0 = ys.getD i 0 := by
  constructor
  · intro h
    subst h
    intro i hi
    rfl
  · intro h
    apply List.ext_getElem hlen
    intro i h1 h2
    have := h i h2
    rw [List.getD_eq_getElem _ _ h1, List.getD_eq_getElem _ _ h2] at this
    exact this

theorem enc_replicate_zero (k : Nat) : enc (List.replicate k 0) = 0 := by
  induction k with
  | zero => simp [enc]
  | succ k ih =>
    rw [List.replicate_succ, enc_cons, ih]
    simp

theorem canon_div_take (W : Nat) (as : List Nat) (h8 : ∀ c ∈ as, c < 8) (t : Nat)
    (ht : t ≤ as.length) (h3n : 3 * as.length ≤ W) :
    canon W as / 2 ^ (W - 3 * t) = enc (as.take t) := by
  unfold canon
  rw [Nat.shiftLeft_eq]
  have hd : W - 3 * as.length + 3 * (as.length - t) = W - 3 * t := by omega
  rw [← hd, pow_add, ← Nat.div_div_eq_div_mul,
    Nat.mul_div_cancel _ (Nat.pos_pow_of_pos _ (by norm_num)),
    show (2 : Nat) ^ (3 * (as.length - t)) = 8 ^ (as.length - t) by rw [pow_mul]; norm_num]
  exact enc_div_take as t h8 ht

theorem canon_div_pad (W : Nat) (as : List Nat) (t : Nat)
    (ht : as.length ≤ t) (h3t : 3 * t ≤ W) :
    canon W as / 2 ^ (W - 3 * t) = enc (as ++ List.replicate (t - as.length) 0) := by
  unfold canon
  rw [Nat.shiftLeft_eq]
  have hd : W - 3 * as.length = 3 * (t - as.length) + (W - 3 * t) := by omega
  rw [hd, pow_add, ← mul_assoc,
    Nat.mul_div_cancel _ (Nat.pos_pow_of_pos _ (by norm_num)),
    enc_append, enc_replicate_zero, List.length_replicate,
    show (2 : Nat) ^ (3 * (t - as.length)) = 8 ^ (t - as.length) by rw [pow_mul]; norm_num]
  omega

theorem starts_with_canon_iff (W : Nat) (hW : 3 ≤ W) (as bs : List Nat)
    (ha8 : ∀ c ∈ as, 2 ≤ c ∧ c < 8) (hb8 : ∀ c ∈ bs, 2 ≤ c ∧ c < 8)
    (hna : as.length ≤ max_phonemes W) (hnb : bs.length ≤ max_phonemes W) :
    (starts_with W (canon W as) (canon W bs) = true ↔
      ∀ i < bs.length, phoneme_at W (canon W as) i = phoneme_at W (canon W bs) i) := by
  have hmax3 := max_phonemes_le W
  have ha8' : ∀ c ∈ as, c < 8 := fun c hc => (ha8 c hc).2
  have hb8' : ∀ c ∈ bs, c < 8 := fun c hc => (hb8 c hc).2
  have hinj : ∀ x < 8, ∀ y < 8, (decode_elem x = decode_elem y ↔ x = y) := by decide
  have hkey : (∀ i < bs.length, phoneme_at W (canon W as) i = phoneme_at W (canon W bs) i) ↔
      ∀ i < bs.length, as.getD i 0 = bs.getD i 0 := by
    constructor <;> intro h i hi <;> have hh := h i hi <;>
      rw [phoneme_at_canon W hW as ha8' hna i (by omega),
        phoneme_at_canon W hW bs hb8' hnb i (by omega)] at *
    · exact (hinj _ (getD_lt_8 as ha8' i) _ (getD_lt_8 bs hb8' i)).mp hh
    · exact (hinj _ (getD_lt_8 as ha8' i) _ (getD_lt_8 bs hb8' i)).mpr hh
  rw [hkey]
  unfold starts_with
  rw [tail_mask_canon W hW bs (fun c hc => ⟨by have := (hb8 c hc).1; omega, (hb8 c hc).2⟩) hnb,
    Bool.and_eq_true, decide_eq_true_iff, decide_eq_true_iff]
  have hbshape : canon W bs = enc bs * 2 ^ (W - 3 * bs.length) := by
    unfold canon
    rw [Nat.shiftLeft_eq]
  rw [hbshape]
  rw [le_or_mask_iff (enc bs) (W - 3 * bs.length) (canon W as)]
  by_cases hc : bs.length ≤ as.length
  · rw [canon_div_take W as ha8' bs.length hc (by omega)]
    constructor
    · intro h i hi
      have heq : as.take bs.length = bs := by
        apply enc_inj _ _ (by rw [List.length_take]; omega)
          (fun c hcm => ha8' c (List.mem_of_mem_take hcm)) hb8' h
      have hlt : (as.take bs.length).length = bs.length := by
        rw [List.length_take]
        omega
      have := (lists_eq_iff_getD _ _ (by omega)).mp heq i hi
      rw [← this, List.getD_eq_getElem _ _ (by omega),
        List.getD_eq_getElem _ _ (by omega), List.getElem_take]
    · intro h
      congr 1
      apply (lists_eq_iff_getD _ _ (by rw [List.length_take]; omega)).mpr
      intro i hi
      rw [List.getD_eq_getElem _ _ (by rw [List.length_take]; omega),
        List.getElem_take, ← List.getD_eq_getElem as 0 (by omega)]
      exact h i hi
  · push_neg at hc
    have hfalse2 : ¬(∀ i < bs.length, as.getD i 0 = bs.getD i 0) := by
      intro h
      have := h as.length hc
      rw [List.getD_eq_default _ _ (by omega), List.getD_eq_getElem _ _ hc] at this
      have := (hb8 _ (List.getElem_mem hc)).1
      omega
    constructor
    · intro h
      exfalso
      rw [canon_div_pad W as bs.length (by omega) (by omega)] at h
      have heq := enc_inj _ _ ?len ?d1 hb8' h
      case len =>
        rw [List.length_append, List.length_replicate]
        omega
      case d1 =>
        intro c hcm
        rcases List.mem_append.mp hcm with hm | hm
        · exact ha8' c hm
        · rw [List.eq_of_mem_replicate hm]
          norm_num
      have h0 : bs.getD as.length 0 = 0 := by
        rw [← heq]
        have hlen2 : as.length < (as ++ List.replicate (bs.length - as.length) 0).length := by
          rw [List.length_append, List.length_replicate]
          omega
        rw [List.getD_eq_getElem _ 0 hlen2, List.getElem_append_right (Nat.le_refl as.length)]
        simp
      rw [List.getD_eq_getElem _ _ hc] at h0
      have := (hb8 _ (List.getElem_mem hc)).1
      omega
    · intro h
      exact absurd h hfalse2

/-! ### Search algorithm lemmas -/

theorem item_at_mem (l : List SearchItem) (i : Nat) (h : i < l.length) : item_at l i ∈ l := by
  unfold item_at
  rw [List.getD_eq_getElem _ _ h]
  exact List.getElem_mem h

theorem lb_accesses_lt (l : List SearchItem) (qfp : Nat) :
    ∀ (fuel base size : Nat), base + size ≤ l.length →
      ∀ i ∈ lb_accesses l qfp fuel base size, i < l.length := by
  intro fuel
  induction fuel with
  | zero => intro base size h i hi; simp [lb_accesses] at hi
  | succ fuel ih =>
    intro base size h i hi
    simp only [lb_accesses] at hi
    by_cases hsz : size = 0
    · rw [if_pos hsz] at hi
      simp at hi
    · rw [if_neg hsz] at hi
      rcases List.mem_cons.mp hi with rfl | hi'
      · omega
      · by_cases hlt : (item_at l (base + size / 2)).fp < qfp
        · rw [if_pos hlt] at hi'
          exact ih (base + size / 2 + 1) (size - (size / 2 + 1)) (by omega) i hi'
        · rw [if_neg hlt] at hi'
          exact ih base (size / 2) (by omega) i hi'

theorem scan_eq_accesses_lt (l : List SearchItem) (qfp : Nat) :
    ∀ (fuel base : Nat), ∀ i ∈ scan_eq_accesses l qfp fuel base, i < l.length := by
  intro fuel
  induction fuel with
  | zero => intro base i hi; simp [scan_eq_accesses] at hi
  | succ fuel ih =>
    intro base i hi
    simp only [scan_eq_accesses] at hi
    by_cases hb : base < l.length
    · rw [if_pos hb] at hi
      by_cases heq : (item_at l base).fp = qfp
      · rw [if_pos heq] at hi
        rcases List.mem_cons.mp hi with rfl | hi'
        · exact hb
        · exact ih (base + 1) i hi'
      · rw [if_neg heq] at hi
        rcases List.mem_singleton.mp hi with rfl
        exact hb
    · rw [if_neg hb] at hi
      simp at hi

theorem scan_fz_accesses_lt (W : Nat) (l : List SearchItem) (qfp maxIdx : Nat)
    (hmax : maxIdx ≤ l.length) :
    ∀ (fuel base : Nat), ∀ i ∈ scan_fz_accesses W l qfp maxIdx fuel base, i < l.length := by
  intro fuel
  induction fuel with
  | zero => intro base i hi; simp [scan_fz_accesses] at hi
  | succ fuel ih =>
    intro base i hi
    simp only [scan_fz_accesses] at hi
    by_cases hb : base < maxIdx
    · rw [if_pos hb] at hi
      by_cases hsw : starts_with W (item_at l base).fp qfp = true
      · rw [if_pos hsw] at hi
        rcases List.mem_cons.mp hi with rfl | hi'
        · omega
        · exact ih (base + 1) i hi'
      · rw [if_neg hsw] at hi
        rcases List.mem_singleton.mp hi with rfl
        omega
    · rw [if_neg hb] at hi
      simp at hi

theorem scan_eq_spec (l : List SearchItem) (qfp : Nat) (qtext : List Nat) :
    ∀ (fuel base : Nat), ∀ x ∈ (scan_eq l qfp qtext fuel base).1,
      x.2 ∈ l ∧ x.2.fp = qfp := by
  intro fuel
  induction fuel with
  | zero => intro base x hx; simp [scan_eq] at hx
  | succ fuel ih =>
    intro base x hx
    simp only [scan_eq] at hx
    by_cases hb : base < l.length
    · rw [if_pos hb] at hx
      by_cases heq : (item_at l base).fp = qfp
      · rw [if_pos heq] at hx
        simp only [List.mem_cons] at hx
        rcases hx with rfl | hx'
        · exact ⟨item_at_mem l base hb, heq⟩
        · exact ih (base + 1) x hx'
      · rw [if_neg heq] at hx
        simp at hx
    · rw [if_neg hb] at hx
      simp at hx

theorem scan_fz_spec (W : Nat) (l : List SearchItem) (qfp : Nat) (qtext : List Nat)
    (maxIdx : Nat) (hmax : maxIdx ≤ l.length) :
    ∀ (fuel base : Nat), ∀ x ∈ scan_fz W l qfp qtext maxIdx fuel base,
      x.2 ∈ l ∧ starts_with W x.2.fp qfp = true := by
  intro fuel
  induction fuel with
  | zero => intro base x hx; simp [scan_fz] at hx
  | succ fuel ih =>
    intro base x hx
    simp only [scan_fz] at hx
    by_cases hb : base < maxIdx
    · rw [if_pos hb] at hx
      by_cases hsw : starts_with W (item_at l base).fp qfp = true
      · rw [if_pos hsw] at hx
        simp only [List.mem_cons] at hx
        rcases hx with rfl | hx'
        · exact ⟨item_at_mem l base (by omega), hsw⟩
        · exact ih (base + 1) x hx'
      · rw [if_neg hsw] at hx
        simp at hx
    · rw [if_neg hb] at hx
      simp at hx

theorem insert_stable_mem (x : Nat × SearchItem) (ys : List (Nat × SearchItem)) :
    ∀ y ∈ insert_stable x ys, y = x ∨ y ∈ ys := by
  induction ys with
  | nil =>
    intro y hy
    simp [insert_stable] at hy
    exact Or.inl hy
  | cons z zs ih =>
    intro y hy
    simp only [insert_stable] at hy
    by_cases hz : z.1 < x.1
    · rw [if_pos hz] at hy
      rcases List.mem_cons.mp hy with rfl | hy'
      · exact Or.inr (List.mem_cons_self _ _)
      · rcases ih y hy' with h | h
        · exact Or.inl h
        · exact Or.inr (List.mem_cons_of_mem _ h)
    · rw [if_neg hz] at hy
      rcases List.mem_cons.mp hy with rfl | hy'
      · exact Or.inl rfl
      · exact Or.inr hy'

theorem sort_by_dist_mem (xs : List (Nat × SearchItem)) :
    ∀ y ∈ sort_by_dist xs, y ∈ xs := by
  induction xs with
  | nil => intro y hy; simp [sort_by_dist] at hy
  | cons x xs ih =>
    intro y hy
    simp only [sort_by_dist] at hy
    rcases insert_stable_mem x (sort_by_dist xs) y hy with rfl | h
    · exact List.mem_cons_self _ _
    · exact List.mem_cons_of_mem _ (ih y h)

/-! ### Construction invariant helpers -/

theorem new_canon (W : Nat) (hW3 : 3 ≤ W) (s : List Nat) :
    phonehash_new W s = canon W (stored_codes W (phonehash_elements s)) :=
  from_elements_canon W hW3 (phonehash_elements s)

theorem new_blank_or_finalized (W : Nat) (hW3 : 3 ≤ W) (s : List Nat) :
    phonehash_new W s = 0 ∨ is_finalized W (phonehash_new W s) = true := by
  rw [new_canon W hW3 s]
  by_cases hne : stored_codes W (phonehash_elements s) = []
  · rw [hne, canon_nil]
    exact Or.inl rfl
  · exact Or.inr
      (canon_finalized W hW3 _ (stored_codes_bounds W _) (stored_codes_len W _) hne)

/-! ### Claim theorems -/

/-- C1, counterexample to the claim as stated: over the width-8 finalized
values a = 88 and b = 65 (both pass the blank-or-finalized test), every slot
below b's stored-phoneme count agrees between a and b, yet a.starts_with(b)
is false — because b's nonzero stray bits make the computed tail mask
collapse to zero. -/
theorem C1_claim_counterexample :
    is_finalized 8 88 = true ∧ is_finalized 8 65 = true ∧
    (∀ i < stored_phoneme_count 8 65, phoneme_at 8 88 i = phoneme_at 8 65 i) ∧
    starts_with 8 88 65 = false := by decide

/-- C1, amended: for fingerprints of the same supported width that are each
produced by the packer (Phonehash::from_iter over any phoneme streams),
a.starts_with(b) returns true if and only if for every index below b's
stored-phoneme count the phonemes of a and b agree; in every other case it
returns false. -/
theorem C1_starts_with_packed (W : Nat) (hW : supportedWidth W)
    (la lb : List PhonehashElem) :
    starts_with W (phonehash_from_elements W la) (phonehash_from_elements W lb) = true ↔
      ∀ i < stored_phoneme_count W (phonehash_from_elements W lb),
        phoneme_at W (phonehash_from_elements W la) i =
          phoneme_at W (phonehash_from_elements W lb) i := by
  have hW3 := supportedWidth_three_le hW
  rw [from_elements_canon W hW3 la, from_elements_canon W hW3 lb,
    stored_count_canon W hW3 _ (stored_codes_bounds W lb) (stored_codes_len W lb)]
  exact starts_with_canon_iff W hW3 _ _ (stored_codes_bounds W la)
    (stored_codes_bounds W lb) (stored_codes_len W la) (stored_codes_len W lb)

theorem C1_starts_with_packed_witness :
    supportedWidth 64 ∧
    (starts_with 64 (phonehash_from_elements 64 [PhonehashElem.M, PhonehashElem.B])
        (phonehash_from_elements 64 [PhonehashElem.M]) = true ↔
      ∀ i < stored_phoneme_count 64 (phonehash_from_elements 64 [PhonehashElem.M]),
        phoneme_at 64 (phonehash_from_elements 64 [PhonehashElem.M, PhonehashElem.B]) i =
          phoneme_at 64 (phonehash_from_elements 64 [PhonehashElem.M]) i) :=
  ⟨by decide, C1_starts_with_packed 64 (by decide) [PhonehashElem.M, PhonehashElem.B]
    [PhonehashElem.M]⟩

set_option maxRecDepth 100000 in
/-- C2: on the five-item collection sorted ascending by width-64 fingerprint,
searching for the item built from the string knight with max_items 5 returns
exactly the items for knight rider, nite writer and neight rheyeder, in that
order, and that order is ascending Damerau-Levenshtein distance to knight. -/
theorem C2_search_concrete :
    phonehash_search 64 c2_list (mk_item "knight") 5 =
      [mk_item "knight rider", mk_item "nite writer", mk_item "neight rheyeder"] ∧
    sorted_by_fp c2_list = true ∧
    damerau_levenshtein (mk_item "knight rider").text (mk_item "knight").text ≤
      damerau_levenshtein (mk_item "nite writer").text (mk_item "knight").text ∧
    damerau_levenshtein (mk_item "nite writer").text (mk_item "knight").text ≤
      damerau_levenshtein (mk_item "neight rheyeder").text (mk_item "knight").text := by
  decide

/-- C3: for every input byte string and every supported width the constructed
fingerprint is blank (zero) or finalized; it is blank exactly when no phoneme
was stored and finalized exactly when at least one phoneme was stored. -/
theorem C3_construction_blank_or_finalized (W : Nat) (hW : supportedWidth W) (s : List Nat) :
    (phonehash_new W s = 0 ∨ is_finalized W (phonehash_new W s) = true) ∧
    (phonehash_new W s = 0 ↔ stored_codes W (phonehash_elements s) = []) ∧
    (is_finalized W (phonehash_new W s) = true ↔
      stored_codes W (phonehash_elements s) ≠ []) := by
  have hW3 := supportedWidth_three_le hW
  refine ⟨new_blank_or_finalized W hW3 s, ?_, ?_⟩
  · rw [new_canon W hW3 s]
    by_cases hne : stored_codes W (phonehash_elements s) = []
    · rw [hne, canon_nil]
      simp
    · have hnz := canon_ne_zero W hW3 _ (stored_codes_bounds W _) (stored_codes_len W _) hne
      exact ⟨fun h => absurd h hnz, fun h => absurd h hne⟩
  · rw [new_canon W hW3 s]
    by_cases hne : stored_codes W (phonehash_elements s) = []
    · rw [hne, canon_nil, is_finalized_zero]
      simp
    · have hfin :=
        canon_finalized W hW3 _ (stored_codes_bounds W _) (stored_codes_len W _) hne
      simp [hfin, hne]

theorem C3_construction_blank_or_finalized_witness :
    supportedWidth 64 ∧
    ((phonehash_new 64 [] = 0 ∨ is_finalized 64 (phonehash_new 64 []) = true) ∧
      (phonehash_new 64 [] = 0 ↔ stored_codes 64 (phonehash_elements []) = []) ∧
      (is_finalized 64 (phonehash_new 64 []) = true ↔
        stored_codes 64 (phonehash_elements []) ≠ [])) :=
  ⟨by decide, C3_construction_blank_or_finalized 64 (by decide) []⟩

/-- C4: in every phonehash_search execution, every index passed to the
unchecked accessor (binary-search probes and both forward scans) is strictly
below the collection length. -/
theorem C4_access_in_bounds (W : Nat) (l : List SearchItem) (q : SearchItem) (m i : Nat)
    (h : i ∈ search_accesses W l q m) : i < l.length := by
  unfold search_accesses at h
  by_cases h0 : l.length = 0
  · rw [if_pos h0] at h
    simp at h
  · rw [if_neg h0] at h
    simp only [List.mem_append] at h
    rcases h with (h | h) | h
    · exact lb_accesses_lt l q.fp l.length 0 l.length (by omega) i h
    · exact scan_eq_accesses_lt l q.fp l.length _ i h
    · exact scan_fz_accesses_lt W l q.fp _ (Nat.min_le_right _ _) l.length _ i h

theorem C4_access_in_bounds_witness :
    0 ∈ search_accesses 64 [dfltItem] dfltItem 1 ∧ 0 < [dfltItem].length :=
  ⟨by decide, C4_access_in_bounds 64 [dfltItem] dfltItem 1 0 (by decide)⟩

/-- C5: decoding a W-bit value through the serialization adapters fails with
the data-validation error exactly when the value is nonzero with its top 3
bits all zero (below 2 to the W minus 3); otherwise decoding succeeds and
returns the value unchanged, and encoding writes the packed integer
verbatim. -/
theorem C5_decode_validation (W r : Nat) (hW : supportedWidth W) (hr : r < 2 ^ W) :
    ((deserialize_phonehash W r =
        Except.error "Phonehash is neither blank nor finalized") ↔
      (r ≠ 0 ∧ r < 2 ^ (W - 3))) ∧
    (¬(r ≠ 0 ∧ r < 2 ^ (W - 3)) → deserialize_phonehash W r = Except.ok r) ∧
    serialize_phonehash r = r := by
  have hW3 := supportedWidth_three_le hW
  have hiff := is_finalized_iff W r hW3 hr
  unfold deserialize_phonehash serialize_phonehash
  refine ⟨⟨?_, ?_⟩, ?_, rfl⟩
  · intro h
    by_cases hc : r ≠ 0 ∧ is_finalized W r = false
    · refine ⟨hc.1, ?_⟩
      by_contra hge
      push_neg at hge
      have := hiff.mpr hge
      rw [hc.2] at this
      exact Bool.noConfusion this
    · rw [if_neg hc] at h
      simp at h
  · rintro ⟨h0, hlt⟩
    rw [if_pos]
    refine ⟨h0, ?_⟩
    cases hfin : is_finalized W r
    · rfl
    · exact absurd (hiff.mp hfin) (by omega)
  · intro h
    rw [if_neg]
    rintro ⟨h0, hfin⟩
    apply h
    refine ⟨h0, ?_⟩
    by_contra hge
    push_neg at hge
    have := hiff.mpr hge
    rw [hfin] at this
    exact Bool.noConfusion this

theorem C5_decode_validation_witness :
    supportedWidth 8 ∧ 3 < 2 ^ 8 ∧
    (((deserialize_phonehash 8 3 =
        Except.error "Phonehash is neither blank nor finalized") ↔
      (3 ≠ 0 ∧ 3 < 2 ^ (8 - 3))) ∧
    (¬((3 : Nat) ≠ 0 ∧ (3 : Nat) < 2 ^ (8 - 3)) → deserialize_phonehash 8 3 = Except.ok 3) ∧
    serialize_phonehash 3 = 3) :=
  ⟨by decide, by decide, C5_decode_validation 8 3 (by decide) (by decide)⟩

/-- C6: for every byte string and every supported width, encoding the
constructed fingerprint and decoding the result through the boundary adapter
succeeds and yields the original fingerprint. -/
theorem C6_roundtrip (W : Nat) (hW : supportedWidth W) (s : List Nat) :
    deserialize_phonehash W (serialize_phonehash (phonehash_new W s)) =
      Except.ok (phonehash_new W s) := by
  have hbf := new_blank_or_finalized W (supportedWidth_three_le hW) s
  unfold deserialize_phonehash serialize_phonehash
  rw [if_neg]
  rintro ⟨h0, hfin⟩
  rcases hbf with h | h
  · exact h0 h
  · rw [h] at hfin
    exact Bool.noConfusion hfin

theorem C6_roundtrip_witness :
    supportedWidth 64 ∧
    deserialize_phonehash 64 (serialize_phonehash (phonehash_new 64 (strBytes "nite"))) =
      Except.ok (phonehash_new 64 (strBytes "nite")) :=
  ⟨by decide, C6_roundtrip 64 (by decide) (strBytes "nite")⟩

/-- C7: two byte strings whose de-duplicated storable-class sequences agree
get equal fingerprints at every supported width; in particular co-op, co op
with extra spaces, and coop all share one fingerprint at every supported
width. -/
theorem C7_vowel_space_erasure :
    (∀ W : Nat, supportedWidth W → ∀ s₁ s₂ : List Nat,
      stored_codes_aux 0 (phonehash_elements s₁) = stored_codes_aux 0 (phonehash_elements s₂) →
      phonehash_new W s₁ = phonehash_new W s₂) ∧
    (∀ W : Nat, supportedWidth W →
      phonehash_new W (strBytes "co-op") = phonehash_new W (strBytes "coop") ∧
      phonehash_new W (strBytes "co   op") = phonehash_new W (strBytes "coop")) := by
  have main : ∀ W : Nat, supportedWidth W → ∀ s₁ s₂ : List Nat,
      stored_codes_aux 0 (phonehash_elements s₁) = stored_codes_aux 0 (phonehash_elements s₂) →
      phonehash_new W s₁ = phonehash_new W s₂ := by
    intro W hW s1 s2 h
    have hW3 := supportedWidth_three_le hW
    rw [new_canon W hW3 s1, new_canon W hW3 s2]
    unfold stored_codes
    rw [h]
  exact ⟨main, fun W hW =>
    ⟨main W hW _ _ (by decide), main W hW _ _ (by decide)⟩⟩

theorem C7_vowel_space_erasure_witness :
    supportedWidth 64 ∧
    phonehash_new 64 (strBytes "neighbour") = phonehash_new 64 (strBytes "nayber") :=
  ⟨by decide, C7_vowel_space_erasure.1 64 (by decide) _ _ (by decide)⟩

/-- C8: for every blank-or-finalized width-W fingerprint, the rendering has
exactly capacity characters, each an underscore or one of the class letters,
and the question-mark branch for a missing phoneme is never taken (phoneme_at
is defined on every slot index below capacity). -/
theorem C8_render_shape (W v : Nat) (hW : supportedWidth W)
    (hbf : v = 0 ∨ is_finalized W v = true) :
    (render W v).length = max_phonemes W ∧
    (∀ c ∈ render W v, c ∈ ['_', 'A', 'B', 'F', 'S', 'G', 'M', 'W']) ∧
    (∀ i, i < max_phonemes W → (phoneme_at W v i).isSome = true) := by
  refine ⟨by simp [render], ?_, ?_⟩
  · intro c hc
    simp only [render, List.mem_map, List.mem_range] at hc
    obtain ⟨i, hi, rfl⟩ := hc
    unfold phoneme_at
    rw [if_neg (by omega)]
    have h7 : (v >>> (stray_bits W + 3 * (max_phonemes W - i - 1))) &&& 7 < 8 :=
      lt_of_le_of_lt Nat.and_le_right (by norm_num)
    have hall : ∀ d < 8,
        (match decode_elem d with
          | some e => elemChar e
          | none => '?') ∈ ['_', 'A', 'B', 'F', 'S', 'G', 'M', 'W'] := by decide
    exact hall _ h7
  · intro i hi
    unfold phoneme_at
    rw [if_neg (by omega)]
    have h7 : (v >>> (stray_bits W + 3 * (max_phonemes W - i - 1))) &&& 7 < 8 :=
      lt_of_le_of_lt Nat.and_le_right (by norm_num)
    have hall : ∀ d < 8, (decode_elem d).isSome = true := by decide
    exact hall _ h7

theorem C8_render_shape_witness :
    supportedWidth 8 ∧ ((0 : Nat) = 0 ∨ is_finalized 8 0 = true) ∧
    ((render 8 0).length = max_phonemes 8 ∧
      (∀ c ∈ render 8 0, c ∈ ['_', 'A', 'B', 'F', 'S', 'G', 'M', 'W']) ∧
      (∀ i, i < max_phonemes 8 → (phoneme_at 8 0 i).isSome = true)) :=
  ⟨by decide, Or.inl rfl, C8_render_shape 8 0 (by decide) (Or.inl rfl)⟩

/-- C9: starts_with is reflexive on W-bit values, and the blank fingerprint
is a universal fuzzy prefix: every W-bit value starts_with the zero
fingerprint. -/
theorem C9_reflexive_blank (W a : Nat) (hW : supportedWidth W) (ha : a < 2 ^ W) :
    starts_with W a a = true ∧ starts_with W a 0 = true := by
  constructor
  · unfold starts_with
    rw [Bool.and_eq_true, decide_eq_true_iff, decide_eq_true_iff]
    refine ⟨Nat.le_refl a, ?_⟩
    apply Nat.le_of_testBit
    intro i h
    rw [Nat.testBit_or, h]
    simp
  · unfold starts_with
    rw [Bool.and_eq_true, decide_eq_true_iff, decide_eq_true_iff]
    refine ⟨Nat.zero_le a, ?_⟩
    have hW1 : 1 ≤ W := by
      have := supportedWidth_three_le hW
      omega
    obtain ⟨W', rfl⟩ : ∃ W', W = W' + 1 := ⟨W - 1, by omega⟩
    show a ≤ 0 ||| tail_mask_loop (W' + 1) 0 (2 ^ (W' + 1) - 1)
    unfold tail_mask_loop
    rw [if_neg (by simp), Nat.zero_or]
    omega

theorem C9_reflexive_blank_witness :
    supportedWidth 64 ∧ 1 < 2 ^ 64 ∧
    (starts_with 64 1 1 = true ∧ starts_with 64 1 0 = true) :=
  ⟨by decide, by decide, C9_reflexive_blank 64 1 (by decide) (by decide)⟩

/-- C10: search soundness: on a collection sorted ascending by fingerprint,
every item phonehash_search returns is an element of the collection whose
fingerprint either equals the query fingerprint or starts_with it, and the
result has at most max_items elements. -/
theorem C10_search_sound (W : Nat) (l : List SearchItem) (q : SearchItem) (m : Nat)
    (hsorted : sorted_by_fp l = true) :
    (∀ it ∈ phonehash_search W l q m,
      it ∈ l ∧ (it.fp = q.fp ∨ starts_with W it.fp q.fp = true)) ∧
    (phonehash_search W l q m).length ≤ m := by
  unfold phonehash_search
  by_cases h0 : l.length = 0
  · rw [if_pos h0]
    simp
  · rw [if_neg h0]
    constructor
    · intro it hit
      simp only [List.mem_map] at hit
      obtain ⟨x, hx, rfl⟩ := hit
      have hx2 := List.mem_of_mem_take hx
      have hx3 := sort_by_dist_mem _ _ hx2
      rcases List.mem_append.mp hx3 with hmem | hmem
      · have h := scan_eq_spec l q.fp q.text l.length _ x hmem
        exact ⟨h.1, Or.inl h.2⟩
      · have h := scan_fz_spec W l q.fp q.text _ (Nat.min_le_right _ _) l.length _ x hmem
        exact ⟨h.1, Or.inr h.2⟩
    · rw [List.length_map, List.length_take]
      exact Nat.min_le_left _ _

theorem C10_search_sound_witness :
    sorted_by_fp [dfltItem] = true ∧
    ((∀ it ∈ phonehash_search 64 [dfltItem] dfltItem 2,
      it ∈ [dfltItem] ∧ (it.fp = dfltItem.fp ∨ starts_with 64 it.fp dfltItem.fp = true)) ∧
    (phonehash_search 64 [dfltItem] dfltItem 2).length ≤ 2) :=
  ⟨by decide, C10_search_sound 64 [dfltItem] dfltItem 2 (by decide)⟩

end Amssa
